import Mathlib

/-!
Verification development for the HOSPITAL-DTA repository (DTA1.py and
uniform.py): a shallow embedding of the discrete-event patient-flow
simulation and proofs of the behavioural properties its specification
states.

The two scripts drive patients through a capacity-limited FIFO doctor
resource (a `simpy.Resource`), collect timing statistics in global
lists, and report aggregate metrics.  The embedding below translates:

* the doctor resource pool with its FIFO wait queue and the grant loop
  that `simpy` runs after every request/release (`Pool`, `drain`,
  `stepOp`, `runPool`);
* the `add_doctors` routine (DTA1.py lines 90-96, uniform.py 85-92),
  which merely files `k` resource requests and never changes capacity;
* the event-queue tie-breaking that makes dispatch deterministic
  (`Event`, `keyLe`, `isNext`);
* the per-patient lifecycle summary and the statistics block
  (DTA1.py lines 112-121): `wait_times`, `treated_times`,
  `left_without_treatment_times`, `average_wait_time`, `throughput`,
  `average_queue_length`, and the queue-length sampling of both
  variants (`queue_samples` for DTA1.py, `uniStep`/`uniRun` for the
  `simpy.Store` used by uniform.py).
-/

namespace HospitalDTA

/-! ## Doctor resource pool (simpy.Resource as used by Hospital.__init__)

`Pool` is the state of `hospital.doctor`: `capacity` is the fixed
capacity handed to `simpy.Resource(env, num_doctors)`, `users` the
requests currently holding a slot, `queue` the FIFO wait queue of
pending requests.  Requests are identified by the id of the process
that filed them. -/

structure Pool where
  capacity : Nat
  users : List Nat
  queue : List Nat
deriving DecidableEq

/-- The grant loop simpy runs after every put/get on a resource: pop
requests off the front of the wait queue into `users` while a slot is
free.  Returns (new users, new queue, requests granted in order). -/
def drain (cap : Nat) : List Nat → List Nat → List Nat × List Nat × List Nat
  | users, [] => (users, [], [])
  | users, q :: rest =>
    if users.length < cap then
      ((drain cap (users ++ [q]) rest).1,
       (drain cap (users ++ [q]) rest).2.1,
       q :: (drain cap (users ++ [q]) rest).2.2)
    else (users, q :: rest, [])

/-- The two resource operations the scripts perform: `request pid`
(`hospital.doctor.request()`, issued by `patient` and by
`add_doctors`) and `release pid` (the exit of the `with ... as
request` block in `patient`). -/
inductive Op where
  | request : Nat → Op
  | release : Nat → Op
deriving DecidableEq

/-- One resource operation followed by the grant loop, as simpy
performs it: a request is appended to the wait queue and the queue is
drained; a release removes the request from `users` and drains.
Returns the new pool and the list of requests granted by this
operation. -/
def stepOp (p : Pool) : Op → Pool × List Nat
  | .request pid =>
    (⟨p.capacity,
      (drain p.capacity p.users (p.queue ++ [pid])).1,
      (drain p.capacity p.users (p.queue ++ [pid])).2.1⟩,
     (drain p.capacity p.users (p.queue ++ [pid])).2.2)
  | .release pid =>
    (⟨p.capacity,
      (drain p.capacity (p.users.erase pid) p.queue).1,
      (drain p.capacity (p.users.erase pid) p.queue).2.1⟩,
     (drain p.capacity (p.users.erase pid) p.queue).2.2)

/-- Run a sequence of resource operations, concatenating the grant
logs in order. -/
def runPool : Pool → List Op → Pool × List Nat
  | p, [] => (p, [])
  | p, op :: ops =>
    ((runPool (stepOp p op).1 ops).1,
     (stepOp p op).2 ++ (runPool (stepOp p op).1 ops).2)

/-- The pool as `Hospital.__init__` creates it:
`simpy.Resource(env, num_doctors)` with nobody using it. -/
def initPool (num_doctors : Nat) : Pool := ⟨num_doctors, [], []⟩

/-- `add_doctors(env, hospital, k)` from DTA1.py lines 90-96 /
uniform.py lines 85-92: it files one `hospital.doctor.request()` per
doctor to add (here identified by fresh pids) and never touches
capacity nor releases anything. -/
def add_doctors (p : Pool) (pids : List Nat) : Pool × List Nat :=
  runPool p (pids.map Op.request)

/-! ### Structure of the grant loop -/

/-- `drain` grants an initial segment of the queue, in order: there is
an `m` with granted = first `m` waiters, remaining queue = the rest,
and the granted requests appended to `users` in queue order. -/
theorem drain_spec (cap : Nat) (queue : List Nat) : ∀ users : List Nat,
    ∃ m, (drain cap users queue).2.2 = queue.take m ∧
      (drain cap users queue).2.1 = queue.drop m ∧
      (drain cap users queue).1 = users ++ queue.take m := by
  induction queue with
  | nil => intro users; exact ⟨0, rfl, rfl, by simp [drain]⟩
  | cons q rest ih =>
    intro users
    by_cases h : users.length < cap
    · obtain ⟨m, h1, h2, h3⟩ := ih (users ++ [q])
      exact ⟨m + 1, by simp [drain, h, h1], by simp [drain, h, h2],
        by simp [drain, h, h3]⟩
    · exact ⟨0, by simp [drain, h], by simp [drain, h], by simp [drain, h]⟩

/-- The grant loop never overfills the pool: starting from at most
`cap` users it ends with at most `cap` users. -/
theorem drain_users_le (cap : Nat) (queue : List Nat) : ∀ users : List Nat,
    users.length ≤ cap → (drain cap users queue).1.length ≤ cap := by
  induction queue with
  | nil => intro users h; simpa [drain] using h
  | cons q rest ih =>
    intro users h
    by_cases hlt : users.length < cap
    · have := ih (users ++ [q]) (by simp; omega)
      simpa [drain, hlt] using this
    · simpa [drain, hlt] using h

/-- No resource operation changes the capacity: neither `request` nor
`release` writes the `capacity` field (the scripts define no
`set_capacity`). -/
theorem stepOp_capacity (p : Pool) (op : Op) :
    (stepOp p op).1.capacity = p.capacity := by
  cases op <;> rfl

/-- Capacity is invariant across any whole run of resource
operations. -/
theorem runPool_capacity (ops : List Op) : ∀ p : Pool,
    (runPool p ops).1.capacity = p.capacity := by
  induction ops with
  | nil => intro p; rfl
  | cons op ops ih =>
    intro p
    calc (runPool p (op :: ops)).1.capacity
        = (runPool (stepOp p op).1 ops).1.capacity := rfl
      _ = (stepOp p op).1.capacity := ih (stepOp p op).1
      _ = p.capacity := stepOp_capacity p op

/-- Every single resource operation preserves `in_use ≤ capacity`. -/
theorem stepOp_users_le (p : Pool) (op : Op) (h : p.users.length ≤ p.capacity) :
    (stepOp p op).1.users.length ≤ (stepOp p op).1.capacity := by
  cases op with
  | request pid =>
    simpa [stepOp] using drain_users_le p.capacity (p.queue ++ [pid]) p.users h
  | release pid =>
    have he : (p.users.erase pid).length ≤ p.capacity :=
      le_trans (List.Sublist.length_le (List.erase_sublist pid p.users)) h
    simpa [stepOp] using drain_users_le p.capacity p.queue (p.users.erase pid) he

/-- Claim C3: at every point of every run the number of concurrently
granted doctor slots is at least 0 (automatic, as it is the length of
the `users` list) and at most the resource's capacity, and every
operation of the simulation — patient acquire and release as well as
the requests filed by `add_doctors` — preserves this invariant: from
any state satisfying `in_use ≤ capacity`, after any sequence of
requests and releases the invariant still holds. -/
theorem users_le_capacity_invariant (p : Pool) (ops : List Op)
    (h : p.users.length ≤ p.capacity) :
    (runPool p ops).1.users.length ≤ (runPool p ops).1.capacity := by
  induction ops generalizing p with
  | nil => simpa [runPool] using h
  | cons op ops ih =>
    have h1 := stepOp_users_le p op h
    simpa [runPool] using ih (stepOp p op).1 h1

/-- Witness for C3 on a concrete run: two doctors, three patient
requests, one release. -/
theorem users_le_capacity_invariant_witness :
    (initPool 2).users.length ≤ (initPool 2).capacity ∧
      (runPool (initPool 2)
        [Op.request 0, Op.request 1, Op.request 2, Op.release 0]).1.users.length ≤
      (runPool (initPool 2)
        [Op.request 0, Op.request 1, Op.request 2, Op.release 0]).1.capacity :=
  ⟨by decide,
   users_le_capacity_invariant (initPool 2)
     [Op.request 0, Op.request 1, Op.request 2, Op.release 0] (by decide)⟩

/-! ### add_doctors: frame effects (claims C1 and C2) -/

/-- After a request, a process that was holding a slot or waiting (or
is the requester itself) is still either holding a slot or waiting:
requests remove nothing from the pool. -/
theorem mem_after_request (p : Pool) (x d : Nat)
    (h : d ∈ p.users ∨ d ∈ p.queue ∨ d = x) :
    d ∈ (stepOp p (Op.request x)).1.users ∨ d ∈ (stepOp p (Op.request x)).1.queue := by
  obtain ⟨m, _, h2, h3⟩ := drain_spec p.capacity (p.queue ++ [x]) p.users
  rcases h with hu | hq | rfl
  · exact Or.inl (by simp [stepOp, h3, hu])
  · have : d ∈ (p.queue ++ [x]).take m ∨ d ∈ (p.queue ++ [x]).drop m := by
      have hd : d ∈ (p.queue ++ [x]).take m ++ (p.queue ++ [x]).drop m := by
        rw [List.take_append_drop]; exact List.mem_append_left _ hq
      exact List.mem_append.mp hd
    rcases this with h' | h'
    · exact Or.inl (by simp [stepOp, h3, h'])
    · exact Or.inr (by simp [stepOp, h2, h'])
  · have : d ∈ (p.queue ++ [d]).take m ∨ d ∈ (p.queue ++ [d]).drop m := by
      have hd : d ∈ (p.queue ++ [d]).take m ++ (p.queue ++ [d]).drop m := by
        rw [List.take_append_drop]; exact List.mem_append_right _ (by simp)
      exact List.mem_append.mp hd
    rcases this with h' | h'
    · exact Or.inl (by simp [stepOp, h3, h'])
    · exact Or.inr (by simp [stepOp, h2, h'])

/-- Over a run made only of requests (such as the one `add_doctors`
performs) nothing ever leaves the pool: a process holding a slot or
waiting still does so at the end. -/
theorem mem_after_requests (pids : List Nat) : ∀ p : Pool, ∀ d : Nat,
    (d ∈ p.users ∨ d ∈ p.queue) →
    d ∈ (runPool p (pids.map Op.request)).1.users ∨
      d ∈ (runPool p (pids.map Op.request)).1.queue := by
  induction pids with
  | nil => intro p d h; simpa [runPool] using h
  | cons x rest ih =>
    intro p d h
    have hstep := mem_after_request p x d (by tauto)
    simpa [runPool] using ih (stepOp p (Op.request x)).1 d hstep

/-- Each doctor-request filed by `add_doctors` ends up either granted
(in `users`) or waiting (in `queue`); it is never released. -/
theorem add_doctors_mem (pids : List Nat) : ∀ p : Pool, ∀ d ∈ pids,
    d ∈ (add_doctors p pids).1.users ∨ d ∈ (add_doctors p pids).1.queue := by
  induction pids with
  | nil => intro p d h; cases h
  | cons x rest ih =>
    intro p d hd
    rcases List.mem_cons.mp hd with rfl | hd'
    · have h0 := mem_after_request p d d (Or.inr (Or.inr rfl))
      have := mem_after_requests rest (stepOp p (Op.request d)).1 d h0
      simpa [add_doctors, runPool] using this
    · have := ih (stepOp p (Op.request x)).1 d hd'
      simpa [add_doctors, runPool] using this

/-- Claim C2: in every run (i.e. from any state reachable from the
initial pool of `NUM_DOCTORS` doctors by resource operations),
executing `add_doctors` with `k` doctor-requests leaves the resource's
capacity unchanged — it stays the initial `num_doctors` — and the `k`
requests it files are only put into the pool (each ends up granted or
still waiting in the FIFO queue) and are never released; the pool
itself never grows. -/
theorem add_doctors_frame (num_doctors : Nat) (ops : List Op) (pids : List Nat) :
    (add_doctors (runPool (initPool num_doctors) ops).1 pids).1.capacity = num_doctors ∧
      ∀ d ∈ pids,
        d ∈ (add_doctors (runPool (initPool num_doctors) ops).1 pids).1.users ∨
          d ∈ (add_doctors (runPool (initPool num_doctors) ops).1 pids).1.queue := by
  constructor
  · calc (add_doctors (runPool (initPool num_doctors) ops).1 pids).1.capacity
        = (runPool (initPool num_doctors) ops).1.capacity :=
          runPool_capacity (pids.map Op.request) (runPool (initPool num_doctors) ops).1
      _ = (initPool num_doctors).capacity := runPool_capacity ops (initPool num_doctors)
  · exact add_doctors_mem pids (runPool (initPool num_doctors) ops).1

/-- Witness for C2 on concrete data: two doctors, four patient
requests already processed, one doctor-request added. -/
theorem add_doctors_frame_witness :
    (add_doctors (runPool (initPool 2)
        [Op.request 0, Op.request 1, Op.request 2, Op.request 3]).1 [100]).1.capacity = 2 ∧
      ((100 : Nat) ∈ ([100] : List Nat) ∧
        (100 ∈ (add_doctors (runPool (initPool 2)
            [Op.request 0, Op.request 1, Op.request 2, Op.request 3]).1 [100]).1.users ∨
          100 ∈ (add_doctors (runPool (initPool 2)
            [Op.request 0, Op.request 1, Op.request 2, Op.request 3]).1 [100]).1.queue)) :=
  ⟨(add_doctors_frame 2 [Op.request 0, Op.request 1, Op.request 2, Op.request 3] [100]).1,
   by decide,
   (add_doctors_frame 2 [Op.request 0, Op.request 1, Op.request 2, Op.request 3] [100]).2
     100 (by decide)⟩

/-- The state DTA1.py is in when `add_doctors(env, hospital, 2)` fires
at `t = 200` in the scenario of the claim: capacity 2, both slots
held (by requests 0 and 1), two patient requests (2 and 3) waiting in
FIFO order.  Reached from the initial pool by four patient requests. -/
def fullPool : Pool :=
  (runPool (initPool 2) [Op.request 0, Op.request 1, Op.request 2, Op.request 3]).1

/-- Claim C1 evaluated on the code at the failing input: from a full
pool (capacity 2, both slots in use) with two patients waiting,
`add_doctors` with two new doctor-requests does NOT increase the
capacity to 4 and grants NO waiting patient at the current time — the
capacity stays 2, the grant log of the operation is empty, and the two
doctor-requests are merely appended to the wait queue behind the
waiting patients.  This contradicts the claimed behaviour (capacity
increased by `k` and the `k` oldest waiting requests granted
immediately); the spec itself flags the routine as a defect
(design note: the capacity-increase routine issues no-op resource
requests instead of actually growing capacity). -/
theorem add_doctors_capacity_unchanged_at_full_pool :
    fullPool = ⟨2, [0, 1], [2, 3]⟩ ∧
      (add_doctors fullPool [100, 101]).1.capacity = 2 ∧
      (add_doctors fullPool [100, 101]).2 = [] ∧
      (add_doctors fullPool [100, 101]).1 = ⟨2, [0, 1], [2, 3, 100, 101]⟩ := by
  decide

/-! ### FIFO fairness (claim C4)

To track the order in which two fixed waiting requests `a` and `b` are
granted, we restrict lists to the letters `a` and `b`. -/

/-- The sub-list of `l` consisting of the occurrences of `a` and `b`,
in order. -/
def interest (a b : Nat) (l : List Nat) : List Nat :=
  l.filter fun x => x == a || x == b

theorem interest_append (a b : Nat) (l l' : List Nat) :
    interest a b (l ++ l') = interest a b l ++ interest a b l' :=
  List.filter_append l l'

theorem interest_cons_left (a b : Nat) (l : List Nat) :
    interest a b (a :: l) = a :: interest a b l := by
  simp [interest, List.filter_cons]

theorem interest_cons_right (a b : Nat) (l : List Nat) :
    interest a b (b :: l) = b :: interest a b l := by
  simp [interest, List.filter_cons]

theorem interest_nil_of_not_mem (a b : Nat) (l : List Nat)
    (ha : a ∉ l) (hb : b ∉ l) : interest a b l = [] := by
  induction l with
  | nil => rfl
  | cons x xs ih =>
    have hxa : x ≠ a := fun h => ha (h ▸ List.mem_cons_self x xs)
    have hxb : x ≠ b := fun h => hb (h ▸ List.mem_cons_self x xs)
    have := ih (fun h => ha (List.mem_cons_of_mem x h))
      (fun h => hb (List.mem_cons_of_mem x h))
    simp [interest, List.filter_cons, hxa, hxb] at this ⊢
    exact this

/-- A single resource operation conserves the `{a, b}`-restricted
contents: what it grants plus what remains waiting is exactly what was
waiting before, in order — because grants are taken from the front of
the queue and a release does not touch the queue except through the
grant loop.  Requires that the operation is not a fresh request by `a`
or `b` themselves. -/
theorem interest_step (a b : Nat) (p : Pool) (op : Op)
    (hop : ∀ x, op = Op.request x → x ≠ a ∧ x ≠ b) :
    interest a b (stepOp p op).2 ++ interest a b (stepOp p op).1.queue
      = interest a b p.queue := by
  cases op with
  | request x =>
    obtain ⟨m, h1, h2, _⟩ := drain_spec p.capacity (p.queue ++ [x]) p.users
    have hx := hop x rfl
    have hxa : ¬(x == a || x == b) = true := by simp [hx.1, hx.2]
    calc interest a b (stepOp p (Op.request x)).2
          ++ interest a b (stepOp p (Op.request x)).1.queue
        = interest a b ((p.queue ++ [x]).take m)
            ++ interest a b ((p.queue ++ [x]).drop m) := by
          simp only [stepOp, h1, h2]
      _ = interest a b (p.queue ++ [x]) := by
          rw [← interest_append, List.take_append_drop]
      _ = interest a b p.queue := by
          rw [interest_append]
          simp [interest, List.filter_cons, hxa]
  | release x =>
    obtain ⟨m, h1, h2, _⟩ := drain_spec p.capacity p.queue (p.users.erase x)
    calc interest a b (stepOp p (Op.release x)).2
          ++ interest a b (stepOp p (Op.release x)).1.queue
        = interest a b (p.queue.take m) ++ interest a b (p.queue.drop m) := by
          simp only [stepOp, h1, h2]
      _ = interest a b p.queue := by
          rw [← interest_append, List.take_append_drop]

/-- A whole run conserves the `{a, b}`-restricted contents: the
restricted grant log followed by the restricted final queue equals the
restricted initial queue, provided neither `a` nor `b` files a fresh
request during the run. -/
theorem interest_run (a b : Nat) (ops : List Op) : ∀ p : Pool,
    (∀ x, Op.request x ∈ ops → x ≠ a ∧ x ≠ b) →
    interest a b (runPool p ops).2 ++ interest a b (runPool p ops).1.queue
      = interest a b p.queue := by
  induction ops with
  | nil => intro p _; simp [runPool, interest]
  | cons op ops ih =>
    intro p hops
    have hstep := interest_step a b p op
      (fun x hx => hops x (hx ▸ List.mem_cons_self op ops))
    have hrest := ih (stepOp p op).1
      (fun x hx => hops x (List.mem_cons_of_mem op hx))
    calc interest a b (runPool p (op :: ops)).2
          ++ interest a b (runPool p (op :: ops)).1.queue
        = interest a b ((stepOp p op).2 ++ (runPool (stepOp p op).1 ops).2)
            ++ interest a b (runPool (stepOp p op).1 ops).1.queue := rfl
      _ = interest a b (stepOp p op).2
            ++ (interest a b (runPool (stepOp p op).1 ops).2
              ++ interest a b (runPool (stepOp p op).1 ops).1.queue) := by
          rw [interest_append, List.append_assoc]
      _ = interest a b (stepOp p op).2 ++ interest a b (stepOp p op).1.queue := by
          rw [hrest]
      _ = interest a b p.queue := hstep

/-- Claim C4: the pool never grants out of enqueue order.  If patient
`a`'s request sits in the FIFO wait queue strictly before patient
`b`'s (and neither re-requests during the rest of the run), then over
any continuation of the run the grant log restricted to `{a, b}` is an
initial segment of `[a, b]`: `b` is never granted before `a`, so if
both are granted while waiting, `a` is granted strictly first. -/
theorem fifo_grant_order (a b : Nat) (p : Pool) (l1 l2 l3 : List Nat)
    (ops : List Op)
    (hq : p.queue = l1 ++ a :: l2 ++ b :: l3)
    (_hab : a ≠ b)
    (ha1 : a ∉ l1) (ha2 : a ∉ l2) (ha3 : a ∉ l3)
    (hb1 : b ∉ l1) (hb2 : b ∉ l2) (hb3 : b ∉ l3)
    (hops : ∀ x, Op.request x ∈ ops → x ≠ a ∧ x ≠ b) :
    ∃ t, interest a b (runPool p ops).2 ++ t = [a, b] := by
  have hinit : interest a b p.queue = [a, b] := by
    rw [hq, interest_append, interest_append,
      interest_nil_of_not_mem a b l1 ha1 hb1,
      interest_cons_left, interest_cons_right,
      interest_nil_of_not_mem a b l2 ha2 hb2,
      interest_nil_of_not_mem a b l3 ha3 hb3]
    rfl
  exact ⟨interest a b (runPool p ops).1.queue, by rw [interest_run a b ops p hops, hinit]⟩

/-- Witness for C4 on a concrete state: patients 2 and 3 wait in that
order in a full two-doctor pool; one release grants patient 2 and the
grant log restricted to `{2, 3}` is an initial segment of `[2, 3]`. -/
theorem fifo_grant_order_witness :
    (Pool.mk 2 [0, 1] [2, 3]).queue = [] ++ 2 :: [] ++ 3 :: [] ∧
      ∃ t, interest 2 3 (runPool (Pool.mk 2 [0, 1] [2, 3]) [Op.release 0]).2 ++ t
        = [2, 3] :=
  ⟨rfl,
   fifo_grant_order 2 3 (Pool.mk 2 [0, 1] [2, 3]) [] [] [] [Op.release 0] rfl
     (by decide) (by decide) (by decide) (by decide) (by decide) (by decide) (by decide)
     (fun x hx => absurd (List.mem_singleton.mp hx) (fun h => Op.noConfusion h))⟩

/-! ## Event dispatch determinism (claim C5)

The simulation is driven by simpy's event queue: every scheduled event
carries its time and a monotonically increasing sequence number, and
the dispatcher always pops the event that is smallest in the
lexicographic `(time, seq)` order.  Both scripts seed the single
pseudo-random source once (`random.seed(RANDOM_SEED)`, DTA1.py line
100 / uniform.py line 96), so the draws are a function of the order in
which processes run; the only place where two runs of the same seeded
configuration could diverge is the choice of the next event when
several share a timestamp.  The theorem below shows that choice is
unique: with pairwise-distinct sequence numbers there is exactly one
minimal event, hence the run — and with it the event log — is a
deterministic function of seed and configuration. -/

structure Event where
  time : ℚ
  seq : Nat
  pid : Nat
deriving DecidableEq

/-- Lexicographic order on `(time, seq)`, the order in which the event
queue dispatches. -/
def keyLe (e f : Event) : Prop :=
  e.time < f.time ∨ (e.time = f.time ∧ e.seq ≤ f.seq)

instance (e f : Event) : Decidable (keyLe e f) := by
  unfold keyLe; infer_instance

/-- `e` is a next event the dispatcher may pop from queue `q`. -/
def isNext (e : Event) (q : List Event) : Prop :=
  e ∈ q ∧ ∀ f ∈ q, keyLe e f

instance (e : Event) (q : List Event) : Decidable (isNext e q) := by
  unfold isNext; infer_instance

/-- Claim C5: dispatch is deterministic.  When the pending events
carry pairwise-distinct sequence numbers (as simpy's increasing event
counter guarantees), any two events that both qualify as the next
event to dispatch are equal: the `(time, seq)` tie-break leaves no
choice, so two executions from the same seed and configuration pop the
same events in the same order and produce identical event logs. -/
theorem dispatch_deterministic (q : List Event) (e₁ e₂ : Event)
    (hnodup : (q.map Event.seq).Nodup)
    (h1 : isNext e₁ q) (h2 : isNext e₂ q) : e₁ = e₂ := by
  have k12 := h1.2 e₂ h2.1
  have k21 := h2.2 e₁ h1.1
  have hseq : e₁.seq = e₂.seq := by
    rcases k12 with h | ⟨ht, hs⟩ <;> rcases k21 with h' | ⟨ht', hs'⟩
    · exact absurd h' (lt_asymm h)
    · exact absurd h (by rw [ht'] at h ⊢; exact lt_irrefl _)
    · exact absurd h' (by rw [ht] at h' ⊢; exact lt_irrefl _)
    · omega
  exact List.inj_on_of_nodup_map hnodup h1.1 h2.1 hseq

/-- Witness for C5 on a concrete queue: three pending events, two of
them tied at time 3; the one with the smaller sequence number is the
unique next event. -/
theorem dispatch_deterministic_witness :
    (([⟨3, 1, 10⟩, ⟨3, 0, 11⟩, ⟨4, 2, 12⟩] : List Event).map Event.seq).Nodup ∧
      isNext ⟨3, 0, 11⟩ [⟨3, 1, 10⟩, ⟨3, 0, 11⟩, ⟨4, 2, 12⟩] ∧
      (⟨3, 0, 11⟩ : Event) = ⟨3, 0, 11⟩ :=
  ⟨by decide, by decide,
   dispatch_deterministic [⟨3, 1, 10⟩, ⟨3, 0, 11⟩, ⟨4, 2, 12⟩] ⟨3, 0, 11⟩ ⟨3, 0, 11⟩
     (by decide) (by decide) (by decide)⟩

/-! ## Patient lifecycle and the statistics block (claims C6, C7, C9)

The `patient` function (DTA1.py lines 38-70) appends to the global
lists: `arrival_times` on arrival; at the moment the doctor request is
granted it appends `env.now - arrival_time` to `wait_times`; then it
either treats (`treated_times` gets the completion time) or leaves
immediately (`left_without_treatment_times` gets the departure time).
A run is summarised by one record per spawned patient with the point
of the lifecycle it had reached when `env.run(until=...)` stopped.
The record lists the global lists in per-patient rather than in
chronological order; all statistics below are counts, sums and means,
which do not depend on the order. -/

/-- The lifecycle point a patient has reached at the end of a run:
still waiting for a doctor; granted at time `g` and still in treatment
at the horizon; treated (granted at `g`, finished at `d`); or granted
at `g` and left without treatment immediately. -/
inductive Progress where
  | waiting : Progress
  | treating : ℚ → Progress
  | treated : ℚ → ℚ → Progress
  | leftWT : ℚ → Progress
deriving DecidableEq

structure PatientRec where
  arrival : ℚ
  progress : Progress
deriving DecidableEq

/-- Entries contributed to the global `arrival_times` list: one per
spawned patient (DTA1.py line 42). -/
def arrival_times (run : List PatientRec) : List ℚ :=
  run.map PatientRec.arrival

/-- Entries contributed to `wait_times`: `env.now - arrival_time`,
appended at the moment the doctor request is granted (DTA1.py lines
58-60) — so every patient past the waiting state contributes one,
including a patient still in treatment when the run is cut off. -/
def wait_times (run : List PatientRec) : List ℚ :=
  run.filterMap fun r =>
    match r.progress with
    | .waiting => none
    | .treating g => some (g - r.arrival)
    | .treated g _ => some (g - r.arrival)
    | .leftWT g => some (g - r.arrival)

/-- Entries contributed to `treated_times` (DTA1.py line 66). -/
def treated_times (run : List PatientRec) : List ℚ :=
  run.filterMap fun r =>
    match r.progress with
    | .treated _ d => some d
    | _ => none

/-- Entries contributed to `left_without_treatment_times`
(DTA1.py line 70). -/
def left_without_treatment_times (run : List PatientRec) : List ℚ :=
  run.filterMap fun r =>
    match r.progress with
    | .leftWT g => some g
    | _ => none

/-- `total_patients = len(arrival_times)` (DTA1.py line 112). -/
def total_patients (run : List PatientRec) : Nat :=
  (arrival_times run).length

/-- `treated_count = len(treated_times)` (DTA1.py line 113). -/
def treated_count (run : List PatientRec) : Nat :=
  (treated_times run).length

/-- `left_without_treatment_count = len(left_without_treatment_times)`
(DTA1.py line 114). -/
def left_without_treatment_count (run : List PatientRec) : Nat :=
  (left_without_treatment_times run).length

/-- `average_wait_time = sum(wait_times) / len(wait_times) if
wait_times else float('inf')` (DTA1.py line 115); the `float('inf')`
sentinel is modelled as `⊤` in `WithTop ℚ`. -/
def average_wait_time (run : List PatientRec) : WithTop ℚ :=
  if wait_times run = [] then ⊤
  else (((wait_times run).sum / ((wait_times run).length : ℚ) : ℚ) : WithTop ℚ)

/-- `throughput = treated_count / 200` (DTA1.py line 116), with the
caller-supplied observation window as a parameter (`200` in DTA1.py,
`SIM_TIME` in uniform.py line 141). -/
def throughput (run : List PatientRec) (window : ℚ) : ℚ :=
  (treated_count run : ℚ) / window

/-- A patient record is terminal when the patient reached Treated or
LeftWithoutTreatment. -/
def isTerminal (r : PatientRec) : Bool :=
  match r.progress with
  | .treated _ _ => true
  | .leftWT _ => true
  | _ => false

/-- Claim C6: in every run in which each spawned patient reached a
terminal state by the end, the arrival count equals the treated count
plus the left-without-treatment count. -/
theorem conservation (run : List PatientRec)
    (h : ∀ r ∈ run, isTerminal r = true) :
    total_patients run = treated_count run + left_without_treatment_count run := by
  induction run with
  | nil => rfl
  | cons r rest ih =>
    have hr := h r (List.mem_cons_self r rest)
    have hrest := ih fun x hx => h x (List.mem_cons_of_mem r hx)
    cases hp : r.progress <;>
      simp [isTerminal, hp] at hr <;>
      simp [total_patients, arrival_times, treated_count, treated_times,
        left_without_treatment_count, left_without_treatment_times,
        List.filterMap_cons, hp] at hrest ⊢ <;>
      omega

/-- Witness for C6: a run of three terminal patients — two treated,
one left without treatment. -/
theorem conservation_witness :
    (∀ r ∈ ([⟨0, .treated 0 6⟩, ⟨0, .treated 0 8⟩, ⟨2, .leftWT 6⟩] :
        List PatientRec), isTerminal r = true) ∧
      total_patients [⟨0, .treated 0 6⟩, ⟨0, .treated 0 8⟩, ⟨2, .leftWT 6⟩]
        = treated_count [⟨0, .treated 0 6⟩, ⟨0, .treated 0 8⟩, ⟨2, .leftWT 6⟩]
          + left_without_treatment_count
              [⟨0, .treated 0 6⟩, ⟨0, .treated 0 8⟩, ⟨2, .leftWT 6⟩] :=
  ⟨by decide,
   conservation [⟨0, .treated 0 6⟩, ⟨0, .treated 0 8⟩, ⟨2, .leftWT 6⟩] (by decide)⟩

/-! ### Average wait time (claim C7)

The code records a wait time at the *grant* (DTA1.py lines 58-60),
before the treat-or-leave decision and before treatment completes, so
`wait_times` has one entry per patient that was granted a doctor —
including a patient whose sampled treatment duration runs past the
`env.run(until=300)` horizon and who therefore never reaches a
terminal state.  The claim says the mean ranges over exactly the
patients that reached a terminal state; the two differ on any run
truncated mid-treatment. -/

/-- A patient whose doctor request was granted (past the waiting
state). -/
def isGranted (r : PatientRec) : Bool :=
  match r.progress with
  | .waiting => false
  | _ => true

/-- The time at which the patient's request was granted (junk value 0
for a patient still waiting, for whom the code records nothing). -/
def grant_time (r : PatientRec) : ℚ :=
  match r.progress with
  | .waiting => 0
  | .treating g => g
  | .treated g _ => g
  | .leftWT g => g

/-- The wait the code records for a granted patient. -/
def waitOf (r : PatientRec) : ℚ := grant_time r - r.arrival

/-- The quantity the claim describes, following the spec's words: the
wait times of exactly the patients that reached a terminal state
(treated or left without treatment). -/
def terminal_wait_times (run : List PatientRec) : List ℚ :=
  run.filterMap fun r =>
    match r.progress with
    | .treated g _ => some (g - r.arrival)
    | .leftWT g => some (g - r.arrival)
    | _ => none

/-- The claim's version of the statistic, following the spec's words:
mean of the wait times of exactly the terminal patients, sentinel when
no patient has completed. -/
def average_wait_time_claimed (run : List PatientRec) : WithTop ℚ :=
  if terminal_wait_times run = [] then ⊤
  else (((terminal_wait_times run).sum
    / ((terminal_wait_times run).length : ℚ) : ℚ) : WithTop ℚ)

/-- A run truncated mid-treatment, reachable by the code: the four
initial patients of DTA1.py arrive at t = 0 with two doctors; patients
1 and 2 are granted at once (wait 0) and are treated in 6 resp. 8
minutes; patient 3 is granted at t = 6 (wait 6) and leaves without
treatment immediately; patient 4 is granted at t = 6 (wait 6), draws a
treatment duration that extends past the run horizon, and is still in
treatment when `env.run` stops — its wait is recorded, but it reaches
no terminal state. -/
def truncatedRun : List PatientRec :=
  [⟨0, .treated 0 6⟩, ⟨0, .treated 0 8⟩, ⟨0, .leftWT 6⟩, ⟨0, .treating 6⟩]

/-- Counterexample to claim C7 as stated: on `truncatedRun` the code's
`average_wait_time` is the mean of the four recorded waits
(0, 0, 6, 6), i.e. 3, while the mean over the wait times of exactly
the terminal patients (0, 0, 6) is 2.  The two statistics differ, so
`average_wait_time` is not the mean over the patients that reached a
terminal state. -/
theorem average_wait_time_cex :
    average_wait_time truncatedRun ≠ average_wait_time_claimed truncatedRun := by
  have hw : wait_times truncatedRun = [0, 0, 6, 6] := by
    norm_num [wait_times, truncatedRun, List.filterMap_cons]
  have ht : terminal_wait_times truncatedRun = [0, 0, 6] := by
    norm_num [terminal_wait_times, truncatedRun, List.filterMap_cons]
  have h1 : average_wait_time truncatedRun = ((3 : ℚ) : WithTop ℚ) := by
    rw [average_wait_time, hw, if_neg (by simp : ¬([0, 0, 6, 6] : List ℚ) = [])]
    norm_num
  have h2 : average_wait_time_claimed truncatedRun = ((2 : ℚ) : WithTop ℚ) := by
    rw [average_wait_time_claimed, ht, if_neg (by simp : ¬([0, 0, 6] : List ℚ) = [])]
    norm_num
  rw [h1, h2]
  intro h
  have : (3 : ℚ) = 2 := by exact_mod_cast h
  norm_num at this

/-- The recorded wait list is exactly one wait per granted patient. -/
theorem wait_times_eq_granted (run : List PatientRec) :
    wait_times run = (run.filter fun r => isGranted r).map waitOf := by
  induction run with
  | nil => rfl
  | cons r rest ih =>
    cases hp : r.progress <;>
      simp [wait_times, List.filterMap_cons, List.filter_cons, isGranted,
        waitOf, grant_time, hp] <;>
      simpa [wait_times] using ih

/-- Claim C7 as amended: `average_wait_time` equals the arithmetic
mean of the recorded wait times of exactly the patients that were
granted a doctor (those past the waiting state, including a patient
still in treatment at the horizon), and when no patient has been
granted it returns the explicit sentinel (`float('inf')`, modelled as
`⊤`) instead of raising an exception. -/
theorem average_wait_time_granted (run : List PatientRec) :
    average_wait_time run =
      if (run.filter fun r => isGranted r) = [] then (⊤ : WithTop ℚ)
      else ((((run.filter fun r => isGranted r).map waitOf).sum
        / (((run.filter fun r => isGranted r).length : ℚ)) : ℚ) : WithTop ℚ) := by
  rw [average_wait_time, wait_times_eq_granted]
  by_cases h : (run.filter fun r => isGranted r) = []
  · simp [h]
  · have h' : (run.filter fun r => isGranted r).map waitOf ≠ [] := by
      simpa using h
    rw [if_neg h', if_neg h, List.length_map]

/-! ### Throughput (claim C9) -/

/-- Shift every timestamp of a lifecycle point by `c`. -/
def shiftProgress (c : ℚ) : Progress → Progress
  | .waiting => .waiting
  | .treating g => .treating (g + c)
  | .treated g d => .treated (g + c) (d + c)
  | .leftWT g => .leftWT (g + c)

/-- Shift every timestamp of a run by `c` (a pure re-reading of the
clock: same patients, same outcomes, different absolute times). -/
def shiftRun (c : ℚ) (run : List PatientRec) : List PatientRec :=
  run.map fun r => ⟨r.arrival + c, shiftProgress c r.progress⟩

/-- Shifting the clock changes no outcome, hence no treated count. -/
theorem treated_count_shift (c : ℚ) (run : List PatientRec) :
    treated_count (shiftRun c run) = treated_count run := by
  induction run with
  | nil => rfl
  | cons r rest ih =>
    cases hp : r.progress <;>
      simp [treated_count, treated_times, shiftRun, shiftProgress,
        List.filterMap_cons, hp] at ih ⊢ <;>
      omega

/-- Claim C9: the reported throughput is the treated-patient count
divided by the caller-supplied observation window (the literal `200`
in DTA1.py line 116, `SIM_TIME` in uniform.py line 141) — exactly, and
it is not inferred from the clock: re-reading every timestamp of the
run shifted by any constant leaves the reported throughput
unchanged. -/
theorem throughput_spec (run : List PatientRec) (window c : ℚ) :
    throughput run window = (treated_count run : ℚ) / window ∧
      throughput (shiftRun c run) window = throughput run window := by
  refine ⟨rfl, ?_⟩
  rw [throughput, throughput, treated_count_shift]

/-! ### Average queue length (claim C8)

DTA1.py keeps a running `hospital.queue_length` counter: line 45
increments it at every arrival (enqueue) and appends a sample to
`queue_lengths` (line 46); lines 54-55 decrement it at every grant
(dequeue) and append a sample.  The average (lines 118-121) is the
unweighted mean of the samples, or 0 when there are none. -/

/-- The two events at which DTA1.py touches `queue_length`. -/
inductive DEvent where
  | arrive : DEvent
  | grant : DEvent
deriving DecidableEq

/-- The samples appended to `queue_lengths` while processing a
sequence of enqueue/dequeue events starting from counter value `q`:
one sample per event, holding the updated counter. -/
def queue_samples : Int → List DEvent → List Int
  | _, [] => []
  | q, DEvent.arrive :: es => (q + 1) :: queue_samples (q + 1) es
  | q, DEvent.grant :: es => (q - 1) :: queue_samples (q - 1) es

/-- `average_queue_length = sum(queue_lengths) / len(queue_lengths)`
when samples exist, else 0 (DTA1.py lines 118-121). -/
def average_queue_length (queue_lengths : List Int) : ℚ :=
  if queue_lengths = [] then 0
  else (queue_lengths.sum : ℚ) / (queue_lengths.length : ℚ)

/-- Each sample is the running queue length: the value recorded at the
`i`-th event is the start value plus the number of enqueues minus the
number of dequeues among the first `i + 1` events. -/
theorem queue_samples_values (es : List DEvent) : ∀ q : Int,
    queue_samples q es = (List.range es.length).map fun i =>
      q + ((es.take (i + 1)).count DEvent.arrive : Int)
        - ((es.take (i + 1)).count DEvent.grant : Int) := by
  induction es with
  | nil => intro q; simp [queue_samples]
  | cons e rest ih =>
    intro q
    cases e with
    | arrive =>
      rw [show queue_samples q (DEvent.arrive :: rest)
          = (q + 1) :: queue_samples (q + 1) rest from rfl, ih (q + 1)]
      rw [List.length_cons, List.range_succ_eq_map, List.map_cons, List.map_map]
      congr 1
      · simp [List.take_succ_cons, List.count_cons]
      · apply List.map_congr_left
        intro i _
        simp [Function.comp, List.take_succ_cons, List.count_cons]
        ring
    | grant =>
      rw [show queue_samples q (DEvent.grant :: rest)
          = (q - 1) :: queue_samples (q - 1) rest from rfl, ih (q - 1)]
      rw [List.length_cons, List.range_succ_eq_map, List.map_cons, List.map_map]
      congr 1
      · simp [List.take_succ_cons, List.count_cons]
      · apply List.map_congr_left
        intro i _
        simp [Function.comp, List.take_succ_cons, List.count_cons]
        ring

/-- One sample per event. -/
theorem queue_samples_length (es : List DEvent) : ∀ q : Int,
    (queue_samples q es).length = es.length := by
  induction es with
  | nil => intro q; rfl
  | cons e rest ih =>
    intro q
    cases e <;> simp [queue_samples, ih]

/-- Every event is an enqueue or a dequeue. -/
theorem devent_count (es : List DEvent) :
    es.count DEvent.arrive + es.count DEvent.grant = es.length := by
  induction es with
  | nil => rfl
  | cons e rest ih =>
    cases e <;> simp [List.count_cons, ih] <;> omega

/-- Claim C8: `average_queue_length` is the unweighted arithmetic mean
of the recorded queue-length samples (0 when no samples exist), where
one sample is appended on every enqueue event and one on every dequeue
(grant) event — the number of samples equals the number of enqueues
plus the number of dequeues, and each sample holds the running queue
length after its event. -/
theorem average_queue_length_spec (es : List DEvent) :
    (queue_samples 0 es).length
        = es.count DEvent.arrive + es.count DEvent.grant ∧
      average_queue_length (queue_samples 0 es)
        = (if queue_samples 0 es = [] then 0
           else ((queue_samples 0 es).sum : ℚ) / ((queue_samples 0 es).length : ℚ)) ∧
      queue_samples 0 es = (List.range es.length).map fun i =>
        ((es.take (i + 1)).count DEvent.arrive : Int)
          - ((es.take (i + 1)).count DEvent.grant : Int) := by
  refine ⟨?_, rfl, ?_⟩
  · rw [queue_samples_length, devent_count]
  · rw [queue_samples_values]
    apply List.map_congr_left
    intro i _
    omega

/-! ## The uniform variant's Store queue (claim C10)

uniform.py gives the hospital a second queue, `self.queue =
simpy.Store(env)` (line 29).  Every patient puts its name into the
store on arrival (line 45) and nothing ever gets an item back out.
The queue-length samples of this variant record `len(
hospital.queue.items)` at arrival (line 42, before the patient's own
put) and again when a doctor becomes available (line 53).  The model
below executes those three instructions per patient in program
order. -/

/-- The sampling points of uniform.py's `patient`: `arrive pid`
performs line 42 (sample `len(items)`) followed by line 45 (put `pid`
into the store); `grant` performs line 53 (sample `len(items)`). -/
inductive UEvent where
  | arrive : Nat → UEvent
  | grant : UEvent
deriving DecidableEq

/-- State of uniform.py's global data: the store contents
(`hospital.queue.items`) and the `queue_lengths` sample list. -/
structure UState where
  items : List Nat
  samples : List Nat
deriving DecidableEq

def uniStep (s : UState) : UEvent → UState
  | .arrive pid => ⟨s.items ++ [pid], s.samples ++ [s.items.length]⟩
  | .grant => ⟨s.items, s.samples ++ [s.items.length]⟩

def uniRunFrom (s : UState) : List UEvent → UState
  | [] => s
  | e :: es => uniRunFrom (uniStep s e) es

/-- A whole run of uniform.py's sampling, from an empty store. -/
def uniRun (tr : List UEvent) : UState := uniRunFrom ⟨[], []⟩ tr

/-- The names put into the store, in arrival order. -/
def arrivalsOf (tr : List UEvent) : List Nat :=
  tr.filterMap fun e =>
    match e with
    | .arrive pid => some pid
    | .grant => none

def isArrival (e : UEvent) : Bool :=
  match e with
  | .arrive _ => true
  | .grant => false

/-- What each sample ought to be per the claim: the number of patients
that arrived strictly before the sampling point. -/
def samples_spec (tr : List UEvent) : List Nat :=
  (List.range tr.length).map fun i => (tr.take i).countP isArrival

theorem uniRunFrom_items (tr : List UEvent) : ∀ s : UState,
    (uniRunFrom s tr).items = s.items ++ arrivalsOf tr := by
  induction tr with
  | nil => intro s; simp [uniRunFrom, arrivalsOf]
  | cons e es ih =>
    intro s
    cases e with
    | arrive pid =>
      rw [show uniRunFrom s (UEvent.arrive pid :: es)
          = uniRunFrom (uniStep s (UEvent.arrive pid)) es from rfl, ih]
      simp [uniStep, arrivalsOf, List.filterMap_cons]
    | grant =>
      rw [show uniRunFrom s (UEvent.grant :: es)
          = uniRunFrom (uniStep s UEvent.grant) es from rfl, ih]
      simp [uniStep, arrivalsOf, List.filterMap_cons]

theorem uniRunFrom_samples (tr : List UEvent) : ∀ s : UState,
    (uniRunFrom s tr).samples = s.samples ++ (List.range tr.length).map
      fun i => s.items.length + (tr.take i).countP isArrival := by
  induction tr with
  | nil => intro s; simp [uniRunFrom]
  | cons e es ih =>
    intro s
    cases e with
    | arrive pid =>
      rw [show uniRunFrom s (UEvent.arrive pid :: es)
          = uniRunFrom (uniStep s (UEvent.arrive pid)) es from rfl, ih]
      rw [List.length_cons, List.range_succ_eq_map, List.map_cons, List.map_map]
      have hmap : List.map ((fun i => s.items.length
            + (List.take i (UEvent.arrive pid :: es)).countP isArrival) ∘ Nat.succ)
            (List.range es.length)
          = List.map (fun i => (uniStep s (UEvent.arrive pid)).items.length
            + (List.take i es).countP isArrival) (List.range es.length) := by
        apply List.map_congr_left
        intro i _
        simp [Function.comp_apply, List.take_succ_cons, List.countP_cons,
          isArrival, uniStep]
        omega
      rw [hmap]
      simp [uniStep]
    | grant =>
      rw [show uniRunFrom s (UEvent.grant :: es)
          = uniRunFrom (uniStep s UEvent.grant) es from rfl, ih]
      rw [List.length_cons, List.range_succ_eq_map, List.map_cons, List.map_map]
      have hmap : List.map ((fun i => s.items.length
            + (List.take i (UEvent.grant :: es)).countP isArrival) ∘ Nat.succ)
            (List.range es.length)
          = List.map (fun i => (uniStep s UEvent.grant).items.length
            + (List.take i es).countP isArrival) (List.range es.length) := by
        apply List.map_congr_left
        intro i _
        simp [Function.comp_apply, List.take_succ_cons, List.countP_cons,
          isArrival, uniStep]
      rw [hmap]
      simp [uniStep]

/-- Counting over a longer initial segment of the trace never counts
fewer arrivals. -/
theorem countP_take_mono (tr : List UEvent) (i j : Nat) (hij : i ≤ j) :
    (tr.take i).countP isArrival ≤ (tr.take j).countP isArrival := by
  have h1 : (tr.take j).take i = tr.take i := by
    rw [List.take_take, min_eq_left hij]
  calc (tr.take i).countP isArrival
      ≤ (tr.take i).countP isArrival
        + ((tr.take j).drop i).countP isArrival := Nat.le_add_right _ _
    _ = ((tr.take j).take i).countP isArrival
        + ((tr.take j).drop i).countP isArrival := by rw [h1]
    _ = (tr.take j).countP isArrival := by
        rw [← List.countP_append, List.take_append_drop]

/-- Claim C10: in the uniform variant a name put into the store is
never removed — at the end of any event sequence the store holds
exactly the names of all patients that arrived, in order — and every
recorded queue-length sample equals the number of patients that
arrived strictly before that sampling point; consequently the samples
(in particular those taken at successive arrivals) form a
non-decreasing sequence, so they measure cumulative arrivals rather
than the waiting-patient count. -/
theorem uniform_store_monotone (tr : List UEvent) :
    (uniRun tr).items = arrivalsOf tr ∧
      (uniRun tr).samples = samples_spec tr ∧
      List.Pairwise (· ≤ ·) (uniRun tr).samples := by
  have hitems : (uniRun tr).items = arrivalsOf tr := by
    rw [uniRun, uniRunFrom_items]; rfl
  have hsamples : (uniRun tr).samples = samples_spec tr := by
    rw [uniRun, uniRunFrom_samples]
    simp [samples_spec]
  refine ⟨hitems, hsamples, ?_⟩
  rw [hsamples, samples_spec]
  have hrange : List.Pairwise (· < ·) (List.range tr.length) :=
    List.pairwise_lt_range tr.length
  exact List.Pairwise.map _
    (fun i j hij => countP_take_mono tr i j (le_of_lt hij)) hrange

end HospitalDTA
